import Mathlib

set_option maxRecDepth 8000

/-!
Verification of the note-storage core of the Markdown Notes CLI
(single Go source file `notes.go`).

Shallow embedding conventions:
* A note's `id` is a Go `int`, modelled as `Int` (the 64-bit overflow
  boundary is unreachable for the properties below).
* `time.Time` values only flow through this program as their serialized
  RFC3339 text, so `Created` is modelled as the serialized `String`.
* File contents are modelled abstractly by `Content`: `Content.note n`
  stands for the exact bytes `json.MarshalIndent` produces for `n`
  (which `json.Unmarshal` parses back to `n`), and `Content.corrupt s`
  stands for any bytes that do not parse as a note record.
* The store directory `notes_db` is modelled as the list of its entries
  (`Dir`), keyed by the file name relative to the directory; `os.ReadDir`
  enumerates these entries.  Injected I/O failures for `os.WriteFile`
  and `os.Rename` are described by `Faults`.
* Go's `strings.ToLower` / `strings.TrimSpace` are Unicode-aware; the
  model implements their behaviour on the ASCII/Latin-1 range, which is
  exact for every string manipulated below.
-/

/-- The `Note` struct of `notes.go` (fields `id`, `title`, `body`, `tags`,
`created`). -/
structure Note where
  ID : Int
  Title : String
  Body : String
  Tags : List String
  Created : String
deriving DecidableEq, Repr

/-- Abstract file contents: `note n` is the serialized record of `n`
(`json.MarshalIndent`), `corrupt s` is any content `json.Unmarshal`
rejects. -/
inductive Content where
  | note (n : Note)
  | corrupt (raw : String)
deriving DecidableEq, Repr

/-- `json.Unmarshal` into a `Note`. -/
def parseContent : Content → Option Note
  | .note n => some n
  | .corrupt _ => none

/-- One directory entry: a subdirectory, a regular file with given
contents, or a regular file whose `os.ReadFile` fails. -/
inductive EntryData where
  | dir
  | file (c : Content)
  | unreadable
deriving DecidableEq, Repr

/-- The contents of the `notes_db` directory: entries in listing order,
keyed by file name relative to the directory. -/
abbrev Dir := List (String × EntryData)

/-- Look an entry up by name. -/
def lookupFile : Dir → String → Option EntryData
  | [], _ => none
  | (k, v) :: rest, name => if k = name then some v else lookupFile rest name

/-- Create or overwrite the entry `name`. -/
def setFile (d : Dir) (name : String) (e : EntryData) : Dir :=
  d.filter (fun p => p.1 != name) ++ [(name, e)]

/-- Delete the entry `name`. -/
def removeFile (d : Dir) (name : String) : Dir :=
  d.filter (fun p => p.1 != name)

/-! ### String machinery (Go `strings` package operations) -/

/-- Is the first list a prefix of the second (`strings.HasPrefix`)? -/
def isPrefL : List Char → List Char → Bool
  | [], _ => true
  | _ :: _, [] => false
  | a :: as, b :: bs => a == b && isPrefL as bs

/-- `strings.HasSuffix s suffix`. -/
def goHasSuffix (s suffix : String) : Bool :=
  isPrefL suffix.data.reverse s.data.reverse

/-- Does `needle` occur as a contiguous sublist of the second argument
(`strings.Contains`)? -/
def containsSub (needle : List Char) : List Char → Bool
  | [] => isPrefL needle []
  | c :: t => isPrefL needle (c :: t) || containsSub needle t

/-- `strings.Contains s sub`. -/
def goContains (s sub : String) : Bool :=
  containsSub sub.data s.data

/-- Number of (possibly overlapping) occurrences of `needle`. -/
def countSub (needle : List Char) : List Char → Nat
  | [] => if isPrefL needle [] then 1 else 0
  | c :: t => (if isPrefL needle (c :: t) then 1 else 0) + countSub needle t

/-- ASCII lower-casing of one character (exact for the ASCII range of
`strings.ToLower`). -/
def asciiLower (c : Char) : Char :=
  if 'A' ≤ c && c ≤ 'Z' then Char.ofNat (c.toNat + 32) else c

/-- `strings.ToLower` (ASCII range). -/
def strLower (s : String) : String :=
  String.mk (s.data.map asciiLower)

/-- `unicode.IsSpace` on the Latin-1 range (the exact set Go documents
there: tab, newline, vertical tab, form feed, carriage return, space,
NEL, NBSP). -/
def goIsSpace (c : Char) : Bool :=
  c == ' ' || c == Char.ofNat 9 || c == Char.ofNat 10 || c == Char.ofNat 11 ||
  c == Char.ofNat 12 || c == Char.ofNat 13 || c == Char.ofNat 0x85 ||
  c == Char.ofNat 0xA0

/-- `strings.TrimSpace`. -/
def trimSpace (s : String) : String :=
  String.mk (((s.data.dropWhile goIsSpace).reverse.dropWhile goIsSpace).reverse)

/-- `strings.Join tags ","`. -/
def joinComma : List String → String
  | [] => ""
  | [t] => t
  | t :: ts => t ++ "," ++ joinComma ts

/-- `strings.Split body "\n"`, over character lists. -/
def splitNl : List Char → List (List Char)
  | [] => [[]]
  | c :: cs =>
    if c = '\n' then [] :: splitNl cs
    else
      match splitNl cs with
      | [] => [[c]]
      | h :: t => (c :: h) :: t

/-! ### Decimal formatting (`fmt.Sprintf "%04d"`) -/

/-- Decimal digits of `n`, most significant first (`fuel` bounds the
recursion; any `fuel ≥ n` gives the digits of `n`). -/
def digitsAux : Nat → Nat → List Char
  | 0, _ => []
  | fuel + 1, n =>
    if n = 0 then []
    else digitsAux fuel (n / 10) ++ [Nat.digitChar (n % 10)]

/-- Decimal representation of a natural number. -/
def natDec (n : Nat) : List Char :=
  if n = 0 then ['0'] else digitsAux n n

/-- Left-pad with `'0'` to width `w` (`fmt`'s zero padding). -/
def goPad0 (w : Nat) (s : List Char) : List Char :=
  List.replicate (w - s.length) '0' ++ s

/-- `fmt.Sprintf "%04d" id`: zero-padded to total width 4, the sign
included in the width (`-7 ↦ "-007"`). -/
def sprintf04d (id : Int) : String :=
  if id < 0 then "-" ++ String.mk (goPad0 3 (natDec id.natAbs))
  else String.mk (goPad0 4 (natDec id.toNat))

/-- `notePath id = fmt.Sprintf("%04d.json", id)` (relative to the store
directory `notes_db`). -/
def notePath (id : Int) : String :=
  sprintf04d id ++ ".json"

/-- The temporary path `saveNote` writes before the rename:
`notePath(id) + ".tmp"`. -/
def tmpPath (id : Int) : String :=
  notePath id ++ ".tmp"

/-! ### The store operations -/

/-- The body of `loadAll`'s scan for one directory entry: subdirectories
and names not ending in `".json"` are skipped, unreadable files are
skipped, and a readable file contributes exactly when it parses. -/
def entryNote : String × EntryData → Option Note
  | (name, .file c) => if goHasSuffix name ".json" then parseContent c else none
  | (_, .dir) => none
  | (_, .unreadable) => none

/-- The successfully-parsed notes of a directory, in scan order. -/
def parseEntries (d : Dir) : List Note :=
  d.filterMap entryNote

/-- The comparison `loadAll` sorts by (`notes[i].ID < notes[j].ID` used
with `sort.Slice`). -/
def noteLe (a b : Note) : Prop := a.ID ≤ b.ID

instance : DecidableRel noteLe := fun a b => Int.decLe a.ID b.ID

instance : IsTotal Note noteLe := ⟨fun a b => Int.le_total a.ID b.ID⟩

instance : IsTrans Note noteLe := ⟨fun _ _ _ h1 h2 => le_trans h1 h2⟩

/-- `loadAll`: scan the directory, keep the entries that parse, sort
ascending by id.  (`os.ReadDir` lists a real directory's entries in
name order; the model takes `d` as that listing.  `sort.Slice` is an
unstable sort; the model's stable insertion sort is one of its allowed
outcomes and every property proved below is independent of how equal
ids are tied.) -/
def loadAll (d : Dir) : List Note :=
  List.insertionSort noteLe (parseEntries d)

/-- `nextID`: one more than the running maximum over the snapshot,
started at 0. -/
def nextID (notes : List Note) : Int :=
  notes.foldl (fun m n => if n.ID > m then n.ID else m) 0 + 1

/-- `loadNote id` (`LoadOne`): read the file at `notePath id` and parse
it; `none` models every error return (missing file, unreadable file,
unparseable content). -/
def loadNote (d : Dir) (id : Int) : Option Note :=
  match lookupFile d (notePath id) with
  | some (.file c) => parseContent c
  | _ => none

/-- What a failed `os.WriteFile` left at the target path: nothing, or a
partially-written file with the given contents. -/
inductive WriteOutcome where
  | ok
  | fail (leftover : Option Content)

/-- Injected I/O failures for one `saveNote` call: the temp-file write
and the rename can each fail (`os.Rename` is atomic: on failure the
file system is unchanged). -/
structure Faults where
  writeTmp : WriteOutcome
  renameFail : Bool

/-- The fault-free schedule. -/
def noFaults : Faults :=
  { writeTmp := .ok, renameFail := false }

/-- `saveNote` (`Save`): marshal `n` (which cannot fail for this
struct), write the bytes to `notePath(n.ID) + ".tmp"`, then rename the
temp file onto `notePath n.ID`.  Each step's error is returned as is;
no cleanup is performed on either failure path. -/
def saveNote (f : Faults) (n : Note) (d : Dir) : Except String Unit × Dir :=
  let tmp := tmpPath n.ID
  match f.writeTmp with
  | .fail leftover =>
    (.error "write tmp failed",
      match leftover with
      | none => d
      | some c => setFile d tmp (.file c))
  | .ok =>
    let d1 := setFile d tmp (.file (.note n))
    if f.renameFail then (.error "rename failed", d1)
    else (.ok (), setFile (removeFile d1 tmp) (notePath n.ID) (.file (.note n)))

/-- A sequence of fault-free `Save` calls. -/
def saveMany (ns : List Note) (d : Dir) : Dir :=
  ns.foldl (fun acc n => (saveNote noFaults n acc).2) d

/-! ### Search (`cmdSearch`) -/

/-- One note's test in `cmdSearch`'s loop (`q` is the already-lowercased
query): the lowered title, the lowered body, or the lowered comma-join
of the tags contains `q`. -/
def noteMatches (q : String) (n : Note) : Bool :=
  goContains (strLower n.Title) q || goContains (strLower n.Body) q ||
    goContains (strLower (joinComma n.Tags)) q

/-- `cmdSearch`: lowercase the query once, load the full snapshot, keep
the notes whose title, body or comma-joined tags contain it. -/
def searchNotes (query : String) (d : Dir) : List Note :=
  (loadAll d).filter (noteMatches (strLower query))

/-! ### Tagging (`cmdTag`) -/

/-- The `seen`-map deduplication of `cmdTag`: keep each tag's first
occurrence (`seen` lists the tags already emitted; the Go code's
`seen` map holds exactly the members of the output built so far). -/
def dedupeGo (seen : List String) : List String → List String
  | [] => []
  | t :: ts => if t ∈ seen then dedupeGo seen ts else t :: dedupeGo (t :: seen) ts

/-- Deduplicate a tag list, first occurrence wins. -/
def dedupe (ts : List String) : List String :=
  dedupeGo [] ts

/-- The pure tag update of `cmdTag`: append each supplied tag after
`strings.TrimSpace`, dropping the ones that trim to empty, then
deduplicate the whole list preserving first occurrences. -/
def addTagsPure (tags newTags : List String) : List String :=
  dedupe (tags ++ (newTags.map trimSpace).filter (fun t => t != ""))

/-- `cmdTag` after CLI parsing: load the note, update its tags, persist
with a fault-free `saveNote`. -/
def cmdTag (d : Dir) (id : Int) (newTags : List String) : Except String Dir :=
  if newTags = [] then .error "usage: tag <id> tag1 [tag2 ...]"
  else
    match loadNote d id with
    | none => .error "load failed"
    | some n =>
      let n' := { n with Tags := addTagsPure n.Tags newTags }
      match saveNote noFaults n' d with
      | (.ok _, d') => .ok d'
      | (.error e, _) => .error e

/-! ### Editor capture (`openEditor`) -/

/-- The system temp directory, as name-to-text entries (editor capture
files hold raw text, not note records). -/
abbrev TmpDir := List (String × String)

/-- Look a temp file up by name. -/
def lookupTmp : TmpDir → String → Option String
  | [], _ => none
  | (k, v) :: rest, name => if k = name then some v else lookupTmp rest name

/-- Create or overwrite a temp file. -/
def setTmp (td : TmpDir) (name : String) (text : String) : TmpDir :=
  td.filter (fun p => p.1 != name) ++ [(name, text)]

/-- `os.Remove` of a temp file. -/
def removeTmp (td : TmpDir) (name : String) : TmpDir :=
  td.filter (fun p => p.1 != name)

/-- Injected failures for one `openEditor` call: `os.CreateTemp`, the
initial `os.WriteFile`, `cmd.Run`, and the final `os.ReadFile` can each
fail. -/
structure EdFaults where
  createFail : Bool
  writeFail : Bool
  runFail : Bool
  readFail : Bool

/-- `openEditor`: create a fresh temp file `name`, write the initial
text, run the editor (an external process that rewrites the file to
`edited`), read the contents back and remove the file.  Mirrors the
source's cleanup: `os.Remove` on the write-failure path, on the
run-failure path, and (unconditionally) after the final read. -/
def openEditor (f : EdFaults) (name initial edited : String) (td : TmpDir) :
    Except String String × TmpDir :=
  if f.createFail then (.error "createtemp failed", td)
  else
    let td1 := setTmp td name ""
    if f.writeFail then (.error "write failed", removeTmp td1 name)
    else
      let td2 := setTmp td1 name initial
      if f.runFail then (.error "editor failed", removeTmp td2 name)
      else
        let td3 := setTmp td2 name edited
        if f.readFail then (.error "read failed", removeTmp td3 name)
        else (.ok edited, removeTmp td3 name)

/-! ### HTML export (`htmlEscape`, `cmdExport`) -/

/-- `htmlEscape` on one character (`strings.NewReplacer` replaces each
occurrence of a single-character pattern simultaneously). -/
def escChar (c : Char) : List Char :=
  if c = '&' then "&amp;".data
  else if c = '<' then "&lt;".data
  else if c = '>' then "&gt;".data
  else if c = '"' then "&quot;".data
  else [c]

/-- `htmlEscape`: escape `&`, `<`, `>`, `"`. -/
def htmlEscape (s : String) : String :=
  String.mk (s.data.map escChar).flatten

/-- The body of `cmdExport`'s per-line loop: a line starting `"# "`
becomes an H2 of the trimmed remainder, a line that trims to empty is
skipped, any other line becomes a paragraph. -/
def renderLine (L : String) : String :=
  if isPrefL "# ".data L.data then
    "<h2>" ++ htmlEscape (trimSpace (String.mk (L.data.drop 2))) ++ "</h2>\n"
  else if trimSpace L = "" then ""
  else "<p>" ++ htmlEscape L ++ "</p>\n"

/-- The lines of a body (`strings.Split(body, "\n")`). -/
def bodyLines (body : String) : List String :=
  (splitNl body.data).map String.mk

/-- Concatenation of the pieces written to `cmdExport`'s
`strings.Builder`. -/
def concatStrings : List String → String
  | [] => ""
  | s :: rest => s ++ concatStrings rest

/-- The HTML document `cmdExport` writes for a note. -/
def exportHTML (n : Note) : String :=
  "<!doctype html>\n<html>\n<head>\n<meta charset=\"utf-8\">\n" ++
  "<title>" ++ htmlEscape n.Title ++ "</title>\n</head>\n<body>\n" ++
  "<h1>" ++ htmlEscape n.Title ++ "</h1>\n" ++
  concatStrings ((bodyLines n.Body).map renderLine) ++
  "</body>\n</html>\n"

/-! ### Spec-side renderings (for refinement comparisons) -/

/-- The spec's per-line rule, stated as the spec words it: an optional
rendering, blank lines yielding nothing. -/
def specLineHTML (L : String) : Option String :=
  if isPrefL "# ".data L.data then
    some ("<h2>" ++ htmlEscape (trimSpace (String.mk (L.data.drop 2))) ++ "</h2>\n")
  else if trimSpace L = "" then none
  else some ("<p>" ++ htmlEscape L ++ "</p>\n")

/-- The spec's body rendering: split into lines, render each line by
`specLineHTML`, drop the blank ones, concatenate. -/
def specBody (body : String) : String :=
  concatStrings ((bodyLines body).filterMap specLineHTML)

/-- The spec claim's reading of the search predicate: one case-insensitive
substring match against the concatenation-view of title, body and the
comma-joined tags. -/
def specConcatMatch (q : String) (n : Note) : Bool :=
  goContains (strLower (n.Title ++ n.Body ++ joinComma n.Tags)) (strLower q)

/-! ### Auxiliary definitions for the development -/

/-- Numeric value of a digit character. -/
def digitVal (c : Char) : Nat := c.toNat - 48

/-- Decimal value of a digit string, accumulated from `a`. -/
def valFrom (a : Nat) (l : List Char) : Nat :=
  l.foldl (fun acc c => 10 * acc + digitVal c) a

/-- The directory whose entries are exactly the given notes' files, in
order. -/
def entriesOf (ns : List Note) : Dir :=
  ns.map (fun n => (notePath n.ID, .file (.note n)))

/-- The `seen` set after `dedupeGo` processes a list. -/
def pushSeen (seen : List String) : List String → List String
  | [] => seen
  | t :: ts => pushSeen (if t ∈ seen then seen else t :: seen) ts

/-! ### Concrete stores and notes used in the scenario checks -/

/-- Scenario note 1 of the spec's search example. -/
def gNote1 : Note :=
  { ID := 1, Title := "Groceries", Body := "", Tags := ["home"],
    Created := "2024-01-01T00:00:00Z" }

/-- Scenario note 2 of the spec's search example. -/
def gNote2 : Note :=
  { ID := 2, Title := "Design Review", Body := "discuss the API", Tags := ["work"],
    Created := "2024-01-02T00:00:00Z" }

/-- The store of the spec's search scenario, built by two saves. -/
def demoStore : Dir := saveMany [gNote1, gNote2] []

/-- A note whose title and body straddle the query `"bc"`. -/
def abNote : Note :=
  { ID := 1, Title := "ab", Body := "cd", Tags := [],
    Created := "2024-01-01T00:00:00Z" }

/-- A store holding only `abNote`. -/
def abStore : Dir := [(notePath 1, .file (.note abNote))]

/-- The note of the spec's export scenario. -/
def exNote : Note :=
  { ID := 1, Title := "Demo", Body := "# Intro\nHello <world>\n\nBye", Tags := [],
    Created := "2024-01-01T00:00:00Z" }

/-- A record whose content id (3) differs from the id its file name
encodes (7). -/
def crossNote : Note :=
  { ID := 3, Title := "t3", Body := "", Tags := [], Created := "c" }

/-- A store with `crossNote`'s record stored at `notePath 7`. -/
def crossDir : Dir := [(notePath 7, .file (.note crossNote))]

/-- A parseable record with a negative id. -/
def negNote : Note :=
  { ID := -3, Title := "t", Body := "", Tags := [], Created := "c" }

/-- A small sample record. -/
def sampleNote : Note :=
  { ID := 5, Title := "s", Body := "b", Tags := ["x"], Created := "c" }

/-- A fault schedule whose temp write fails leaving partial bytes. -/
def writeFailPartial : Faults :=
  { writeTmp := .fail (some (.corrupt "torn write")), renameFail := false }

/-- A fault schedule whose rename step fails. -/
def renameFailOnly : Faults :=
  { writeTmp := .ok, renameFail := true }

/-- An editor run whose `cmd.Run` step fails. -/
def runFailEd : EdFaults :=
  { createFail := false, writeFail := false, runFail := true, readFail := false }



/-! ### Association-list lemmas for `Dir` -/

theorem lookup_append (d1 d2 : Dir) (name : String) :
    lookupFile (d1 ++ d2) name =
      match lookupFile d1 name with
      | some v => some v
      | none => lookupFile d2 name := by
  induction d1 with
  | nil => rfl
  | cons p rest ih =>
    obtain ⟨k, v⟩ := p
    by_cases h : k = name
    · simp [lookupFile, h]
    · simpa [lookupFile, h] using ih

theorem lookup_filter_ne_self (d : Dir) (name : String) :
    lookupFile (d.filter (fun p => p.1 != name)) name = none := by
  induction d with
  | nil => rfl
  | cons p rest ih =>
    obtain ⟨k, v⟩ := p
    by_cases h : k = name
    · simpa [List.filter_cons, h] using ih
    · simpa [List.filter_cons, h, lookupFile] using ih

theorem lookup_filter_ne (d : Dir) (name name' : String) (h : name' ≠ name) :
    lookupFile (d.filter (fun p => p.1 != name)) name' = lookupFile d name' := by
  induction d with
  | nil => rfl
  | cons p rest ih =>
    obtain ⟨k, v⟩ := p
    by_cases hk : k = name
    · subst hk
      simpa [List.filter_cons, lookupFile, (Ne.symm h : k ≠ name')] using ih
    · by_cases hk' : k = name'
      · subst hk'
        simp [List.filter_cons, hk, lookupFile]
      · simpa [List.filter_cons, hk, lookupFile, hk'] using ih

theorem lookup_set_self (d : Dir) (name : String) (e : EntryData) :
    lookupFile (setFile d name e) name = some e := by
  rw [setFile, lookup_append, lookup_filter_ne_self]
  simp [lookupFile]

theorem lookup_set_ne (d : Dir) (name name' : String) (e : EntryData)
    (h : name' ≠ name) :
    lookupFile (setFile d name e) name' = lookupFile d name' := by
  rw [setFile, lookup_append, lookup_filter_ne _ _ _ h]
  cases hl : lookupFile d name' with
  | some v => rfl
  | none => simp [lookupFile, Ne.symm h]

theorem lookup_remove_ne (d : Dir) (name name' : String) (h : name' ≠ name) :
    lookupFile (removeFile d name) name' = lookupFile d name' :=
  lookup_filter_ne d name name' h

/-! ### Suffix facts about note paths -/

theorem isPrefL_self_append (xs ys : List Char) : isPrefL xs (xs ++ ys) = true := by
  induction xs with
  | nil => rfl
  | cons a as ih => simp [isPrefL, ih]

theorem goHasSuffix_append (s t : String) : goHasSuffix (s ++ t) t = true := by
  show isPrefL t.data.reverse (s.data ++ t.data).reverse = true
  rw [List.reverse_append]
  exact isPrefL_self_append _ _

theorem json_suffix (s : String) : goHasSuffix (s ++ ".json") ".json" = true :=
  goHasSuffix_append s ".json"

theorem tmp_not_json (s : String) : goHasSuffix (s ++ ".tmp") ".json" = false := by
  show isPrefL ".json".data.reverse (s.data ++ ".tmp".data).reverse = false
  rw [List.reverse_append]
  show isPrefL ['n', 'o', 's', 'j', '.'] ('p' :: 'm' :: 't' :: '.' :: s.data.reverse) = false
  simp [isPrefL]

theorem notePath_is_json (i : Int) : goHasSuffix (notePath i) ".json" = true :=
  json_suffix (sprintf04d i)

theorem tmpPath_not_json (i : Int) : goHasSuffix (tmpPath i) ".json" = false :=
  tmp_not_json (notePath i)

theorem tmpPath_ne_notePath (i j : Int) : tmpPath i ≠ notePath j := by
  intro h
  have hfalse := tmpPath_not_json i
  rw [h, notePath_is_json j] at hfalse
  simp at hfalse

theorem notePath_ne_tmpPath (i j : Int) : notePath i ≠ tmpPath j :=
  fun h => tmpPath_ne_notePath j i h.symm

/-! ### Injectivity of `fmt.Sprintf "%04d"` -/


theorem valFrom_append (a : Nat) (l1 l2 : List Char) :
    valFrom a (l1 ++ l2) = valFrom (valFrom a l1) l2 := by
  simp [valFrom]

theorem digitVal_digitChar : ∀ d < 10, digitVal (Nat.digitChar d) = d := by decide

theorem digitChar_ne_dash : ∀ d < 10, Nat.digitChar d ≠ '-' := by decide

theorem valFrom_digitsAux :
    ∀ fuel n a, n ≤ fuel →
      valFrom a (digitsAux fuel n) = a * 10 ^ (digitsAux fuel n).length + n := by
  intro fuel
  induction fuel with
  | zero =>
    intro n a hn
    interval_cases n
    simp [digitsAux, valFrom]
  | succ fuel ih =>
    intro n a hn
    by_cases h0 : n = 0
    · subst h0
      simp [digitsAux, valFrom]
    · have hlt : n / 10 < n := Nat.div_lt_self (Nat.pos_of_ne_zero h0) (by norm_num)
      have hle : n / 10 ≤ fuel := Nat.lt_succ_iff.mp (lt_of_lt_of_le hlt hn)
      rw [show digitsAux (fuel + 1) n =
            digitsAux fuel (n / 10) ++ [Nat.digitChar (n % 10)] by
          simp [digitsAux, h0]]
      rw [valFrom_append, ih (n / 10) a hle]
      have hmod : digitVal (Nat.digitChar (n % 10)) = n % 10 :=
        digitVal_digitChar (n % 10) (Nat.mod_lt n (by norm_num))
      simp only [valFrom, List.foldl_cons, List.foldl_nil, List.length_append,
        List.length_singleton, hmod]
      rw [pow_succ]
      have := Nat.div_add_mod n 10
      ring_nf
      omega

theorem val_natDec (n : Nat) : valFrom 0 (natDec n) = n := by
  by_cases h0 : n = 0
  · subst h0; decide
  · rw [natDec, if_neg h0, valFrom_digitsAux n n 0 (le_refl n)]
    simp

theorem valFrom_replicate_zero (k : Nat) :
    valFrom 0 (List.replicate k '0') = 0 := by
  induction k with
  | zero => rfl
  | succ k ih =>
    rw [List.replicate_succ]
    simpa [valFrom, digitVal] using ih

theorem val_goPad0 (w n : Nat) : valFrom 0 (goPad0 w (natDec n)) = n := by
  rw [goPad0, valFrom_append, valFrom_replicate_zero, val_natDec]

theorem mem_digitsAux :
    ∀ fuel n c, c ∈ digitsAux fuel n → ∃ d, d < 10 ∧ c = Nat.digitChar d := by
  intro fuel
  induction fuel with
  | zero => intro n c hc; simp [digitsAux] at hc
  | succ fuel ih =>
    intro n c hc
    by_cases h0 : n = 0
    · subst h0; simp [digitsAux] at hc
    · rw [show digitsAux (fuel + 1) n =
            digitsAux fuel (n / 10) ++ [Nat.digitChar (n % 10)] by
          simp [digitsAux, h0]] at hc
      rcases List.mem_append.mp hc with h | h
      · exact ih (n / 10) c h
      · exact ⟨n % 10, Nat.mod_lt n (by norm_num), by simpa using h⟩

theorem mem_natDec (n : Nat) (c : Char) (hc : c ∈ natDec n) :
    ∃ d, d < 10 ∧ c = Nat.digitChar d := by
  by_cases h0 : n = 0
  · subst h0
    simp [natDec] at hc
    exact ⟨0, by norm_num, by simpa using hc⟩
  · rw [natDec, if_neg h0] at hc
    exact mem_digitsAux n n c hc

theorem mem_goPad0_natDec_ne_dash (w n : Nat) (c : Char)
    (hc : c ∈ goPad0 w (natDec n)) : c ≠ '-' := by
  rcases List.mem_append.mp hc with h | h
  · rw [List.eq_of_mem_replicate h]; decide
  · obtain ⟨d, hd, rfl⟩ := mem_natDec n c h
    exact digitChar_ne_dash d hd

theorem natDec_ne_nil (n : Nat) : natDec n ≠ [] := by
  by_cases h0 : n = 0
  · subst h0; simp [natDec]
  · rw [natDec, if_neg h0]
    have h1 : 1 ≤ n := Nat.pos_of_ne_zero h0
    cases n with
    | zero => exact absurd rfl h0
    | succ m => simp [digitsAux, h0]

theorem goPad0_natDec_ne_nil (w n : Nat) : goPad0 w (natDec n) ≠ [] := by
  rw [goPad0]
  intro h
  rcases List.append_eq_nil.mp h with ⟨_, h2⟩
  exact natDec_ne_nil n h2

theorem sprintf04d_inj : ∀ i j : Int, sprintf04d i = sprintf04d j → i = j := by
  have hdata : ∀ s t : String, s = t → s.data = t.data := fun s t h => by rw [h]
  have hneg : ∀ m : Nat, ("-" ++ String.mk (goPad0 3 (natDec m))).data =
      '-' :: goPad0 3 (natDec m) := fun m => rfl
  have hpos : ∀ m : Nat, (String.mk (goPad0 4 (natDec m))).data =
      goPad0 4 (natDec m) := fun m => rfl
  have headDash : ∀ (m : Nat) (l : List Char), '-' :: l = goPad0 4 (natDec m) → False := by
    intro m l h
    have hmem : ('-' : Char) ∈ goPad0 4 (natDec m) := by
      rw [← h]; exact List.mem_cons_self _ _
    exact mem_goPad0_natDec_ne_dash 4 m '-' hmem rfl
  intro i j h
  by_cases hi : i < 0 <;> by_cases hj : j < 0
  · rw [sprintf04d, if_pos hi, sprintf04d, if_pos hj] at h
    have h2 := hdata _ _ h
    rw [hneg, hneg] at h2
    have h3 : goPad0 3 (natDec i.natAbs) = goPad0 3 (natDec j.natAbs) :=
      List.tail_eq_of_cons_eq h2
    have h4 : i.natAbs = j.natAbs := by
      have := congrArg (valFrom 0) h3
      rwa [val_goPad0, val_goPad0] at this
    omega
  · rw [sprintf04d, if_pos hi, sprintf04d, if_neg hj] at h
    have h2 := hdata _ _ h
    rw [hneg, hpos] at h2
    exact absurd h2 (fun hc => headDash _ _ hc)
  · rw [sprintf04d, if_neg hi, sprintf04d, if_pos hj] at h
    have h2 := hdata _ _ h
    rw [hneg, hpos] at h2
    exact absurd h2.symm (fun hc => headDash _ _ hc)
  · rw [sprintf04d, if_neg hi, sprintf04d, if_neg hj] at h
    have h2 := hdata _ _ h
    rw [hpos, hpos] at h2
    have h4 : i.toNat = j.toNat := by
      have := congrArg (valFrom 0) h2
      rwa [val_goPad0, val_goPad0] at this
    omega

theorem notePath_inj : ∀ i j : Int, notePath i = notePath j → i = j := by
  intro i j h
  apply sprintf04d_inj
  have h2 : (sprintf04d i).data ++ ".json".data = (sprintf04d j).data ++ ".json".data :=
    congrArg String.data h
  have h3 : (sprintf04d i).data = (sprintf04d j).data :=
    List.append_cancel_right h2
  exact congrArg String.mk h3

/-! ### `loadAll` and `saveNote` structure lemmas -/

theorem removeFile_setFile (d : Dir) (name : String) (e : EntryData) :
    removeFile (setFile d name e) name = removeFile d name := by
  simp [removeFile, setFile, List.filter_append, List.filter_filter]

theorem saveNote_ok (n : Note) (d : Dir) :
    saveNote noFaults n d =
      (.ok (), setFile (removeFile d (tmpPath n.ID)) (notePath n.ID)
        (.file (.note n))) := by
  simp [saveNote, noFaults, removeFile_setFile]

theorem entryNote_none_of_not_json (name : String) (e : EntryData)
    (h : goHasSuffix name ".json" = false) : entryNote (name, e) = none := by
  cases e <;> simp [entryNote, h]

theorem parseEntries_append (d1 d2 : Dir) :
    parseEntries (d1 ++ d2) = parseEntries d1 ++ parseEntries d2 := by
  simp [parseEntries, List.filterMap_append]

theorem parseEntries_filter_not_json (d : Dir) (name : String)
    (h : goHasSuffix name ".json" = false) :
    parseEntries (d.filter (fun p => p.1 != name)) = parseEntries d := by
  induction d with
  | nil => rfl
  | cons p rest ih =>
    obtain ⟨k, v⟩ := p
    by_cases hk : k = name
    · subst hk
      cases he : entryNote (k, v) with
      | none =>
        simp only [List.filter_cons, bne_self_eq_false, Bool.false_eq_true,
          if_false, parseEntries, List.filterMap_cons, he]
        exact ih
      | some m =>
        rw [entryNote_none_of_not_json k v h] at he
        exact absurd he (Option.noConfusion)
    · have hbne : ((k, v).1 != name) = true := by simpa using hk
      cases he : entryNote (k, v) with
      | none =>
        simp only [List.filter_cons, hbne, if_true, parseEntries,
          List.filterMap_cons, he]
        exact ih
      | some m =>
        simp only [List.filter_cons, hbne, if_true, parseEntries,
          List.filterMap_cons, he, List.cons.injEq, true_and]
        exact ih

theorem loadAll_set_not_json (d : Dir) (name : String) (e : EntryData)
    (h : goHasSuffix name ".json" = false) :
    loadAll (setFile d name e) = loadAll d := by
  rw [loadAll, loadAll, setFile, parseEntries_append,
    parseEntries_filter_not_json d name h]
  rw [show parseEntries [(name, e)] = [] by
    simp [parseEntries, entryNote_none_of_not_json name e h]]
  rw [List.append_nil]

theorem loadAll_remove_not_json (d : Dir) (name : String)
    (h : goHasSuffix name ".json" = false) :
    loadAll (removeFile d name) = loadAll d := by
  rw [loadAll, loadAll, removeFile, parseEntries_filter_not_json d name h]

/-- A failed `saveNote` leaves the directory's `LoadAll` view unchanged:
every file it may have touched sits at the `.tmp` path, which the scan
skips. -/
theorem loadAll_after_failed_save (f : Faults) (n : Note) (d : Dir)
    (herr : (saveNote f n d).1 ≠ .ok ()) :
    loadAll (saveNote f n d).2 = loadAll d := by
  rw [saveNote] at herr ⊢
  cases hw : f.writeTmp with
  | fail leftover =>
    simp only [hw]
    cases leftover with
    | none => rfl
    | some c => exact loadAll_set_not_json d (tmpPath n.ID) (.file c) (tmpPath_not_json n.ID)
  | ok =>
    simp only [hw] at herr ⊢
    by_cases hr : f.renameFail
    · simp only [hr, if_true]
      exact loadAll_set_not_json d (tmpPath n.ID) (.file (.note n)) (tmpPath_not_json n.ID)
    · simp [hr] at herr

/-- The final path after a failed `saveNote` holds exactly what it held
before. -/
theorem lookup_final_after_failed_save (f : Faults) (n : Note) (d : Dir)
    (herr : (saveNote f n d).1 ≠ .ok ()) :
    lookupFile (saveNote f n d).2 (notePath n.ID) = lookupFile d (notePath n.ID) := by
  rw [saveNote] at herr ⊢
  cases hw : f.writeTmp with
  | fail leftover =>
    simp only [hw]
    cases leftover with
    | none => rfl
    | some c =>
      exact lookup_set_ne d (tmpPath n.ID) (notePath n.ID) (.file c)
        (notePath_ne_tmpPath n.ID n.ID)
  | ok =>
    simp only [hw] at herr ⊢
    by_cases hr : f.renameFail
    · simp only [hr, if_true]
      exact lookup_set_ne d (tmpPath n.ID) (notePath n.ID) (.file (.note n))
        (notePath_ne_tmpPath n.ID n.ID)
    · simp [hr] at herr

/-! ### A store built by a sequence of fault-free saves -/


theorem removeFile_entriesOf_tmp (ns : List Note) (i : Int) :
    removeFile (entriesOf ns) (tmpPath i) = entriesOf ns := by
  rw [removeFile, List.filter_eq_self.mpr]
  intro p hp
  rw [entriesOf] at hp
  obtain ⟨m, _, rfl⟩ := List.mem_map.mp hp
  simpa using notePath_ne_tmpPath m.ID i

theorem setFile_entriesOf (ns : List Note) (n : Note)
    (h : ∀ m ∈ ns, m.ID ≠ n.ID) :
    setFile (entriesOf ns) (notePath n.ID) (.file (.note n)) =
      entriesOf (ns ++ [n]) := by
  have hfilter : (entriesOf ns).filter (fun p => p.1 != notePath n.ID) = entriesOf ns := by
    apply List.filter_eq_self.mpr
    intro p hp
    rw [entriesOf] at hp
    obtain ⟨m, hm, rfl⟩ := List.mem_map.mp hp
    have hne2 : notePath m.ID ≠ notePath n.ID := fun hc => h m hm (notePath_inj _ _ hc)
    simpa using hne2
  rw [setFile, hfilter, entriesOf, entriesOf, List.map_append, List.map_cons,
    List.map_nil]

theorem saveMany_entriesOf :
    ∀ (ns ps : List Note), (((ps ++ ns).map Note.ID).Nodup) →
      saveMany ns (entriesOf ps) = entriesOf (ps ++ ns) := by
  intro ns
  induction ns with
  | nil => intro ps _; simp [saveMany]
  | cons n rest ih =>
    intro ps h
    have hne : ∀ m ∈ ps, m.ID ≠ n.ID := by
      intro m hm heq
      rw [List.map_append] at h
      obtain ⟨-, -, hdisj⟩ := List.nodup_append.mp h
      exact hdisj (heq ▸ List.mem_map_of_mem Note.ID hm)
        (by simp [List.map_cons])
    have hstep : (saveNote noFaults n (entriesOf ps)).2 = entriesOf (ps ++ [n]) := by
      rw [saveNote_ok]
      simp only
      rw [removeFile_entriesOf_tmp, setFile_entriesOf ps n hne]
    have h' : (((ps ++ [n]) ++ rest).map Note.ID).Nodup := by
      rw [List.append_assoc, List.singleton_append]
      exact h
    calc saveMany (n :: rest) (entriesOf ps)
        = saveMany rest (saveNote noFaults n (entriesOf ps)).2 := rfl
      _ = saveMany rest (entriesOf (ps ++ [n])) := by rw [hstep]
      _ = entriesOf ((ps ++ [n]) ++ rest) := ih (ps ++ [n]) h'
      _ = entriesOf (ps ++ n :: rest) := by
          rw [List.append_assoc, List.singleton_append]

theorem parseEntries_entriesOf (ns : List Note) :
    parseEntries (entriesOf ns) = ns := by
  induction ns with
  | nil => rfl
  | cons n rest ih =>
    rw [entriesOf, List.map_cons, parseEntries, List.filterMap_cons]
    rw [show entryNote (notePath n.ID, .file (.note n)) = some n by
      simp [entryNote, notePath_is_json, parseContent]]
    rw [show List.map (fun n => (notePath n.ID, EntryData.file (.note n))) rest
        = entriesOf rest from rfl]
    rw [show List.filterMap entryNote (entriesOf rest) = parseEntries (entriesOf rest)
        from rfl, ih]

theorem loadAll_saveMany (ns : List Note) (h : (ns.map Note.ID).Nodup) :
    loadAll (saveMany ns []) = List.insertionSort noteLe ns := by
  have hsm := saveMany_entriesOf ns [] (by simpa using h)
  have h0 : entriesOf [] = ([] : Dir) := rfl
  rw [h0] at hsm
  rw [hsm, List.nil_append, loadAll, parseEntries_entriesOf]

/-! ### `nextID` fold lemmas -/

theorem foldl_max_init_le :
    ∀ (ns : List Note) (a : Int),
      a ≤ ns.foldl (fun m n => if n.ID > m then n.ID else m) a := by
  intro ns
  induction ns with
  | nil => intro a; simp
  | cons k rest ih =>
    intro a
    rw [List.foldl_cons]
    refine le_trans ?_ (ih _)
    split_ifs with h <;> omega

theorem foldl_max_le :
    ∀ (ns : List Note) (a m : Int), a ≤ m → (∀ n ∈ ns, n.ID ≤ m) →
      ns.foldl (fun m n => if n.ID > m then n.ID else m) a ≤ m := by
  intro ns
  induction ns with
  | nil => intro a m ha _; simpa using ha
  | cons k rest ih =>
    intro a m ha hmem
    rw [List.foldl_cons]
    refine ih _ m ?_ (fun n hn => hmem n (List.mem_cons_of_mem k hn))
    have := hmem k (List.mem_cons_self k rest)
    split_ifs with h <;> omega

theorem mem_le_foldl_max :
    ∀ (ns : List Note) (a : Int) (n : Note), n ∈ ns →
      n.ID ≤ ns.foldl (fun m n => if n.ID > m then n.ID else m) a := by
  intro ns
  induction ns with
  | nil => intro a n hn; simp at hn
  | cons k rest ih =>
    intro a n hn
    rw [List.foldl_cons]
    rcases List.mem_cons.mp hn with rfl | hn'
    · refine le_trans ?_ (foldl_max_init_le rest _)
      split_ifs with h <;> omega
    · exact ih _ n hn'

/-! ### Deduplication lemmas -/


theorem mem_pushSeen :
    ∀ (l seen : List String) (x : String),
      x ∈ pushSeen seen l ↔ x ∈ seen ∨ x ∈ l := by
  intro l
  induction l with
  | nil => intro seen x; simp [pushSeen]
  | cons t ts ih =>
    intro seen x
    rw [pushSeen]
    by_cases ht : t ∈ seen
    · rw [if_pos ht, ih]
      constructor
      · rintro (h | h)
        · exact Or.inl h
        · exact Or.inr (List.mem_cons_of_mem t h)
      · rintro (h | h)
        · exact Or.inl h
        · rcases List.mem_cons.mp h with rfl | h'
          · exact Or.inl ht
          · exact Or.inr h'
    · rw [if_neg ht, ih]
      constructor
      · rintro (h | h)
        · rcases List.mem_cons.mp h with rfl | h'
          · exact Or.inr (List.mem_cons_self _ _)
          · exact Or.inl h'
        · exact Or.inr (List.mem_cons_of_mem t h)
      · rintro (h | h)
        · exact Or.inl (List.mem_cons_of_mem t h)
        · rcases List.mem_cons.mp h with rfl | h'
          · exact Or.inl (List.mem_cons_self _ _)
          · exact Or.inr h'

theorem mem_dedupeGo :
    ∀ (l seen : List String) (x : String),
      x ∈ dedupeGo seen l ↔ x ∈ l ∧ x ∉ seen := by
  intro l
  induction l with
  | nil => intro seen x; simp [dedupeGo]
  | cons t ts ih =>
    intro seen x
    rw [dedupeGo]
    by_cases ht : t ∈ seen
    · rw [if_pos ht, ih]
      constructor
      · rintro ⟨h1, h2⟩
        exact ⟨List.mem_cons_of_mem t h1, h2⟩
      · rintro ⟨h1, h2⟩
        rcases List.mem_cons.mp h1 with rfl | h'
        · exact absurd ht h2
        · exact ⟨h', h2⟩
    · rw [if_neg ht]
      constructor
      · intro h
        rcases List.mem_cons.mp h with rfl | h'
        · exact ⟨List.mem_cons_self _ _, ht⟩
        · obtain ⟨h1, h2⟩ := (ih _ x).mp h'
          have hx : x ≠ t := fun hc => h2 (hc ▸ List.mem_cons_self t seen)
          exact ⟨List.mem_cons_of_mem t h1, fun hc => h2 (List.mem_cons_of_mem t hc)⟩
      · rintro ⟨h1, h2⟩
        rcases List.mem_cons.mp h1 with rfl | h'
        · exact List.mem_cons_self _ _
        · by_cases hx : x = t
          · exact hx ▸ List.mem_cons_self _ _
          · refine List.mem_cons_of_mem t ((ih _ x).mpr ⟨h', ?_⟩)
            intro hc
            rcases List.mem_cons.mp hc with h'' | h''
            · exact hx h''
            · exact h2 h''

theorem nodup_dedupeGo :
    ∀ (l seen : List String), (dedupeGo seen l).Nodup := by
  intro l
  induction l with
  | nil => intro seen; simp [dedupeGo]
  | cons t ts ih =>
    intro seen
    rw [dedupeGo]
    by_cases ht : t ∈ seen
    · rw [if_pos ht]; exact ih seen
    · rw [if_neg ht]
      refine List.nodup_cons.mpr ⟨?_, ih _⟩
      intro hc
      obtain ⟨-, h2⟩ := (mem_dedupeGo ts (t :: seen) t).mp hc
      exact h2 (List.mem_cons_self _ _)

theorem dedupeGo_append :
    ∀ (l1 l2 seen : List String),
      dedupeGo seen (l1 ++ l2) = dedupeGo seen l1 ++ dedupeGo (pushSeen seen l1) l2 := by
  intro l1
  induction l1 with
  | nil => intro l2 seen; simp [dedupeGo, pushSeen]
  | cons t ts ih =>
    intro l2 seen
    rw [List.cons_append, dedupeGo, dedupeGo, pushSeen]
    by_cases ht : t ∈ seen
    · rw [if_pos ht, if_pos ht, if_pos ht, ih]
    · rw [if_neg ht, if_neg ht, if_neg ht, ih, List.cons_append]

theorem dedupeGo_nil_of_subset :
    ∀ (l seen : List String), (∀ x ∈ l, x ∈ seen) → dedupeGo seen l = [] := by
  intro l
  induction l with
  | nil => intro seen _; rfl
  | cons t ts ih =>
    intro seen h
    rw [dedupeGo, if_pos (h t (List.mem_cons_self _ _))]
    exact ih seen (fun x hx => h x (List.mem_cons_of_mem t hx))

theorem dedupeGo_eq_self :
    ∀ (l seen : List String), l.Nodup → (∀ x ∈ l, x ∉ seen) → dedupeGo seen l = l := by
  intro l
  induction l with
  | nil => intro seen _ _; rfl
  | cons t ts ih =>
    intro seen hnd hdisj
    obtain ⟨hth, hts⟩ := List.nodup_cons.mp hnd
    rw [dedupeGo, if_neg (hdisj t (List.mem_cons_self _ _))]
    congr 1
    refine ih _ hts ?_
    intro x hx hc
    rcases List.mem_cons.mp hc with rfl | h'
    · exact hth hx
    · exact hdisj x (List.mem_cons_of_mem t hx) h'

theorem mem_dedupe (l : List String) (x : String) : x ∈ dedupe l ↔ x ∈ l := by
  rw [dedupe, mem_dedupeGo]
  simp

theorem nodup_dedupe (l : List String) : (dedupe l).Nodup :=
  nodup_dedupeGo l []

theorem dedupe_append_absorb (l e : List String) (he : ∀ x ∈ e, x ∈ dedupe l) :
    dedupe (dedupe l ++ e) = dedupe l := by
  rw [dedupe, dedupeGo_append]
  rw [show dedupeGo [] (dedupe l) = dedupe l from
    dedupeGo_eq_self (dedupe l) [] (nodup_dedupe l) (by simp)]
  rw [dedupeGo_nil_of_subset e _ (fun x hx => (mem_pushSeen (dedupe l) [] x).mpr
    (Or.inr (he x hx)))]
  rw [List.append_nil]

theorem addTagsPure_idem (T S : List String) :
    addTagsPure (addTagsPure T S) S = addTagsPure T S := by
  rw [addTagsPure, addTagsPure]
  apply dedupe_append_absorb
  intro x hx
  rw [mem_dedupe]
  exact List.mem_append_right T hx

/-! ### Export refinement lemmas -/

theorem renderLine_eq_spec (L : String) :
    renderLine L = (specLineHTML L).getD "" := by
  rw [renderLine, specLineHTML]
  split_ifs <;> rfl

theorem concat_map_renderLine (lines : List String) :
    concatStrings (lines.map renderLine) =
      concatStrings (lines.filterMap specLineHTML) := by
  induction lines with
  | nil => rfl
  | cons L rest ih =>
    rw [List.map_cons, List.filterMap_cons, concatStrings, renderLine_eq_spec]
    cases h : specLineHTML L with
    | none =>
      simp only [Option.getD_none]
      rw [show ∀ s : String, "" ++ s = s from fun _ => rfl]
      exact ih
    | some s =>
      simp only [Option.getD_some]
      rw [concatStrings]
      exact congrArg (s ++ ·) ih

/-! ### Editor-capture cleanup lemmas -/

theorem lookupTmp_remove_self (td : TmpDir) (name : String) :
    lookupTmp (removeTmp td name) name = none := by
  induction td with
  | nil => rfl
  | cons p rest ih =>
    obtain ⟨k, v⟩ := p
    by_cases h : k = name
    · simpa [removeTmp, List.filter_cons, h] using ih
    · simpa [removeTmp, List.filter_cons, h, lookupTmp] using ih

theorem openEditor_no_leftover (f : EdFaults) (name initial edited : String)
    (td : TmpDir) (h : lookupTmp td name = none) :
    lookupTmp (openEditor f name initial edited td).2 name = none := by
  rw [openEditor]
  split_ifs <;> simp [lookupTmp_remove_self, h]

/-! ### Load-after-save lemmas -/

theorem loadNote_after_save (n : Note) (d : Dir) :
    loadNote (saveNote noFaults n d).2 n.ID = some n := by
  rw [saveNote_ok]
  simp only [loadNote]
  rw [lookup_set_self]
  rfl

/-- The final path after any `saveNote` call holds either its prior
entry or the complete new record — never anything else. -/
theorem lookup_final_save_cases (f : Faults) (n : Note) (d : Dir) :
    lookupFile (saveNote f n d).2 (notePath n.ID) = lookupFile d (notePath n.ID) ∨
      lookupFile (saveNote f n d).2 (notePath n.ID) =
        some (.file (.note n)) := by
  rw [saveNote]
  cases hw : f.writeTmp with
  | fail leftover =>
    simp only
    cases leftover with
    | none => exact Or.inl rfl
    | some c =>
      exact Or.inl (lookup_set_ne d (tmpPath n.ID) (notePath n.ID) (.file c)
        (notePath_ne_tmpPath n.ID n.ID))
  | ok =>
    by_cases hr : f.renameFail
    · simp only [hr, if_true]
      exact Or.inl (lookup_set_ne d (tmpPath n.ID) (notePath n.ID)
        (.file (.note n)) (notePath_ne_tmpPath n.ID n.ID))
    · simp only [hr, if_false]
      exact Or.inr (lookup_set_self _ _ _)

theorem sorted_loadAll (d : Dir) : (loadAll d).Sorted noteLe :=
  List.sorted_insertionSort noteLe (parseEntries d)

theorem perm_loadAll (d : Dir) : (loadAll d).Perm (parseEntries d) :=
  List.perm_insertionSort noteLe (parseEntries d)

theorem cmdTag_ok_loadNote (d : Dir) (id : Int) (tgs : List String) (n : Note)
    (hload : loadNote d id = some n) (ht : tgs ≠ []) :
    ∃ d', cmdTag d id tgs = .ok d' ∧
      loadNote d' n.ID = some { n with Tags := addTagsPure n.Tags tgs } := by
  refine ⟨(saveNote noFaults { n with Tags := addTagsPure n.Tags tgs } d).2, ?_,
    loadNote_after_save _ d⟩
  rw [cmdTag, if_neg ht, hload]
  rfl



/-! ## Claim theorems -/

/-- C1: `Save` writes the serialized record to a temporary path inside the
store directory and renames it onto the final path derived from the note's
id; on any injected I/O error during the temp-write or rename step it
fails, the prior entry (or absence) at the final path is unchanged and
`LoadOne` still sees exactly the prior record; in every case the final
path holds either the prior entry or the complete new record, never
partial content. -/
theorem save_atomic_and_error_atomic (f : Faults) (n : Note) (d : Dir) :
    (saveNote noFaults n d =
      (.ok (), setFile (removeFile d (tmpPath n.ID)) (notePath n.ID)
        (.file (.note n))))
    ∧ (f.writeTmp ≠ .ok ∨ f.renameFail = true →
        (saveNote f n d).1 ≠ .ok () ∧
        lookupFile (saveNote f n d).2 (notePath n.ID) =
          lookupFile d (notePath n.ID) ∧
        loadNote (saveNote f n d).2 n.ID = loadNote d n.ID)
    ∧ (lookupFile (saveNote f n d).2 (notePath n.ID) =
          lookupFile d (notePath n.ID) ∨
        lookupFile (saveNote f n d).2 (notePath n.ID) =
          some (.file (.note n))) := by
  refine ⟨saveNote_ok n d, ?_, lookup_final_save_cases f n d⟩
  intro hf
  have herr : (saveNote f n d).1 ≠ .ok () := by
    rcases hf with hw | hr
    · cases hwt : f.writeTmp with
      | ok => exact absurd hwt hw
      | fail l => simp [saveNote, hwt]
    · cases hwt : f.writeTmp with
      | ok => simp [saveNote, hwt, hr]
      | fail l => simp [saveNote, hwt]
  refine ⟨herr, lookup_final_after_failed_save f n d herr, ?_⟩
  rw [loadNote, loadNote, lookup_final_after_failed_save f n d herr]

/-- C1 witness: a write failure that leaves a partial temp file is an
error and leaves the prior (absent) record and `LoadOne` view unchanged. -/
theorem save_atomic_and_error_atomic_witness :
    (saveNote writeFailPartial sampleNote []).1 ≠ .ok () ∧
    lookupFile (saveNote writeFailPartial sampleNote []).2 (notePath sampleNote.ID) =
      lookupFile [] (notePath sampleNote.ID) ∧
    loadNote (saveNote writeFailPartial sampleNote []).2 sampleNote.ID =
      loadNote [] sampleNote.ID :=
  (save_atomic_and_error_atomic writeFailPartial sampleNote []).2.1
    (Or.inl (fun h => WriteOutcome.noConfusion h))

/-- C2: `LoadAll` returns exactly the successfully-parsed records sorted
ascending by id; directory entries that are not regular files, do not end
in `.json`, fail to read, or fail to parse are silently skipped; after a
sequence of saves with distinct ids into an empty store it returns exactly
those notes in ascending-id order, and on an empty directory it returns
the empty sequence. -/
theorem loadAll_exactly_parsed_sorted :
    (∀ d : Dir, (loadAll d).Perm (parseEntries d) ∧ (loadAll d).Sorted noteLe)
    ∧ (∀ (d : Dir) (name : String) (e : EntryData),
        e = .dir ∨ e = .unreadable ∨ goHasSuffix name ".json" = false ∨
          (∃ s, e = .file (.corrupt s)) →
        loadAll (d ++ [(name, e)]) = loadAll d)
    ∧ (∀ ns : List Note, (ns.map Note.ID).Nodup →
        (loadAll (saveMany ns [])).Perm ns ∧
        (loadAll (saveMany ns [])).Sorted noteLe)
    ∧ loadAll [] = [] := by
  refine ⟨fun d => ⟨perm_loadAll d, sorted_loadAll d⟩, ?_, ?_, rfl⟩
  · intro d name e he
    have hskip : parseEntries [(name, e)] = [] := by
      rcases he with rfl | rfl | hns | ⟨s, rfl⟩
      · rfl
      · rfl
      · simp [parseEntries, entryNote_none_of_not_json name e hns]
      · cases hs : goHasSuffix name ".json" <;>
          simp [parseEntries, entryNote, parseContent, hs]
    rw [loadAll, loadAll, parseEntries_append, hskip, List.append_nil]
  · intro ns h
    rw [loadAll_saveMany ns h]
    exact ⟨List.perm_insertionSort noteLe ns, List.sorted_insertionSort noteLe ns⟩

/-- C2 witness: a corrupt file next to one valid record is skipped, and
two saves with distinct ids load back as exactly those two notes. -/
theorem loadAll_exactly_parsed_sorted_witness :
    loadAll ([(notePath 1, .file (.note gNote1))] ++ [("bad.json", .file (.corrupt "x"))]) =
      loadAll [(notePath 1, .file (.note gNote1))] ∧
    (loadAll (saveMany [gNote1, gNote2] [])).Perm [gNote1, gNote2] :=
  ⟨loadAll_exactly_parsed_sorted.2.1 [(notePath 1, .file (.note gNote1))] "bad.json"
      (.file (.corrupt "x")) (Or.inr (Or.inr (Or.inr ⟨"x", rfl⟩))),
    (loadAll_exactly_parsed_sorted.2.2.1 [gNote1, gNote2] (by decide)).1⟩

/-- C3 counterexample: for a snapshot holding one parseable record with
id -3, `nextID` returns 1, not `1 + (-3)`: the code clamps the running
maximum at 0, so "1 + the maximum id present" fails for snapshots whose
maximum id is negative. -/
theorem nextID_claim_counterexample : ¬ (nextID [negNote] = 1 + negNote.ID) := by
  decide

/-- C3 (amended): `nextID` of the empty snapshot is 1; whenever the
snapshot's maximum id is nonnegative (in particular for the positive ids
of the data model), `nextID` equals 1 + that maximum; when every id in
the snapshot is negative, `nextID` is 1 (the clamp at 0), as it is on the
empty snapshot; and `nextID` is strictly greater than every id in the
snapshot.  It is a pure function of the snapshot. -/
theorem nextID_spec (ns : List Note) :
    nextID [] = 1
    ∧ (∀ m : Int, 0 ≤ m → (∃ n ∈ ns, n.ID = m) → (∀ n ∈ ns, n.ID ≤ m) →
        nextID ns = 1 + m)
    ∧ ((∀ n ∈ ns, n.ID < 0) → nextID ns = 1)
    ∧ (∀ n ∈ ns, n.ID < nextID ns) := by
  refine ⟨rfl, ?_, ?_, ?_⟩
  · intro m hm ⟨n0, hn0, hid⟩ hub
    have h1 : ns.foldl (fun m n => if n.ID > m then n.ID else m) 0 ≤ m :=
      foldl_max_le ns 0 m hm hub
    have h2 : m ≤ ns.foldl (fun m n => if n.ID > m then n.ID else m) 0 :=
      hid ▸ mem_le_foldl_max ns 0 n0 hn0
    rw [nextID]
    omega
  · intro hneg
    have h1 : ns.foldl (fun m n => if n.ID > m then n.ID else m) 0 ≤ 0 :=
      foldl_max_le ns 0 0 le_rfl (fun n hn => le_of_lt (hneg n hn))
    have h2 : (0 : Int) ≤ ns.foldl (fun m n => if n.ID > m then n.ID else m) 0 :=
      foldl_max_init_le ns 0
    rw [nextID]
    omega
  · intro n hn
    have := mem_le_foldl_max ns 0 n hn
    rw [nextID]
    omega

/-- C3 witness: on a snapshot with the single id 5, `nextID` is 6 and 5
is strictly below it; on the all-negative snapshot holding only id -3,
`nextID` is 1. -/
theorem nextID_spec_witness :
    nextID [sampleNote] = 1 + 5 ∧ sampleNote.ID < nextID [sampleNote] ∧
      nextID [negNote] = 1 :=
  ⟨(nextID_spec [sampleNote]).2.1 5 (by decide) ⟨sampleNote, by decide, by decide⟩
      (by decide),
    (nextID_spec [sampleNote]).2.2.2 sampleNote (by decide),
    (nextID_spec [negNote]).2.2.1 (by decide)⟩

/-- C4: `Save(n)` followed by `LoadOne(n.id)` returns a record equal to
`n` in all fields (id, title, body, tags, created). -/
theorem save_then_loadOne_roundtrip (n : Note) (d : Dir) :
    loadNote (saveNote noFaults n d).2 n.ID = some n :=
  loadNote_after_save n d

/-- C5: `AddTags` appends each supplied tag after trimming, drops
empty-after-trim entries, deduplicates preserving first-occurrence order,
and persists the result; repeated application of the same tag set is
idempotent, and the spec's two-step scenario yields `["a", "b", "c"]`. -/
theorem addTags_trim_dedupe_idempotent :
    (∀ (d : Dir) (id : Int) (tgs : List String) (n : Note),
        loadNote d id = some n → tgs ≠ [] →
        ∃ d', cmdTag d id tgs = .ok d' ∧
          loadNote d' n.ID = some { n with Tags := addTagsPure n.Tags tgs })
    ∧ (∀ T S : List String, addTagsPure (addTagsPure T S) S = addTagsPure T S)
    ∧ addTagsPure (addTagsPure [] ["a", "a", "b"]) ["b", "c"] = ["a", "b", "c"] :=
  ⟨cmdTag_ok_loadNote, addTagsPure_idem, by decide⟩

/-- C5 witness: tagging the stored record of `crossDir` succeeds and
persists the deduplicated tags. -/
theorem addTags_trim_dedupe_idempotent_witness :
    ∃ d', cmdTag crossDir 7 ["a", " a ", "b"] = .ok d' ∧
      loadNote d' crossNote.ID =
        some { crossNote with Tags := addTagsPure crossNote.Tags ["a", " a ", "b"] } :=
  addTags_trim_dedupe_idempotent.1 crossDir 7 ["a", " a ", "b"] crossNote
    (by decide) (by decide)

/-- C6 counterexample: with the store holding the single note
`{id 1, title "ab", body "cd"}`, a search for `"bc"` returns nothing,
while a substring match against the concatenation-view
`title ++ body ++ tags` (the claim as stated) selects the note: the code
matches each field separately, so queries spanning a field boundary never
match. -/
theorem search_concat_view_counterexample :
    ¬ (searchNotes "bc" abStore = (loadAll abStore).filter (specConcatMatch "bc")) := by
  decide

/-- C6 (amended): `Search` lowercases the query once and matches it
independently per note — against the lowered title, the lowered body, or
the lowered comma-join of the tags (not against their single
concatenation) — over a full `LoadAll` snapshot, returning matches in
ascending-id order; the spec's scenario queries return exactly ids 2, 1
and none respectively. -/
theorem search_per_field_sorted :
    (∀ (q : String) (d : Dir) (n : Note),
        n ∈ searchNotes q d ↔ n ∈ loadAll d ∧ noteMatches (strLower q) n = true)
    ∧ (∀ (q : String) (d : Dir), (searchNotes q d).Sorted noteLe)
    ∧ (searchNotes "api" demoStore).map Note.ID = [2]
    ∧ (searchNotes "home" demoStore).map Note.ID = [1]
    ∧ (searchNotes "zzz" demoStore).map Note.ID = [] := by
  refine ⟨?_, ?_, by decide, by decide, by decide⟩
  · intro q d n
    rw [searchNotes]
    exact List.mem_filter
  · intro q d
    exact (sorted_loadAll d).filter _

/-- C7: `Export` produces the fixed document skeleton around the
spec-side body rendering (each `"# "` line an H2 with the marker stripped
and trimmed, other non-blank lines paragraphs, blank lines dropped, all
text HTML-escaped), and on the spec's scenario note the output contains
`<h2>Intro</h2>`, the escaped paragraphs, and exactly two paragraphs. -/
theorem export_h2_paragraphs_escaped :
    (∀ n : Note, exportHTML n =
        "<!doctype html>\n<html>\n<head>\n<meta charset=\"utf-8\">\n" ++
        "<title>" ++ htmlEscape n.Title ++ "</title>\n</head>\n<body>\n" ++
        "<h1>" ++ htmlEscape n.Title ++ "</h1>\n" ++
        specBody n.Body ++ "</body>\n</html>\n")
    ∧ exportHTML exNote =
        "<!doctype html>\n<html>\n<head>\n<meta charset=\"utf-8\">\n" ++
        "<title>Demo</title>\n</head>\n<body>\n<h1>Demo</h1>\n" ++
        "<h2>Intro</h2>\n<p>Hello &lt;world&gt;</p>\n<p>Bye</p>\n" ++
        "</body>\n</html>\n"
    ∧ goContains (exportHTML exNote) "<h2>Intro</h2>" = true
    ∧ goContains (exportHTML exNote) "<p>Hello &lt;world&gt;</p>" = true
    ∧ goContains (exportHTML exNote) "<p>Bye</p>" = true
    ∧ countSub "<p>".data (exportHTML exNote).data = 2 := by
  refine ⟨?_, by decide, by decide, by decide, by decide, by decide⟩
  intro n
  rw [exportHTML, specBody, concat_map_renderLine]

/-- C8 counterexample: when the rename step fails, `saveNote` returns the
error with the fully-written temporary file still present — the
atomic-write flow does not delete its abandoned temp file. -/
theorem save_tmp_cleanup_counterexample :
    (saveNote renameFailOnly sampleNote []).1 ≠ .ok () ∧
    lookupFile (saveNote renameFailOnly sampleNote []).2
      (tmpPath sampleNote.ID) = some (.file (.note sampleNote)) :=
  ⟨fun h => Except.noConfusion h, by decide⟩

/-- C8 (amended): the editor-capture flow deletes its temporary file on
every exit path (success and all three injected failures), but the
atomic-write flow of `Save` performs no cleanup: a rename failure returns
the error with the fully-written temporary file left behind at the `.tmp`
path, and a temp-write failure that left bytes behind returns the error
with those bytes still at the `.tmp` path. -/
theorem tmp_cleanup_editor_only :
    (∀ (f : EdFaults) (name initial edited : String) (td : TmpDir),
        lookupTmp td name = none →
        lookupTmp (openEditor f name initial edited td).2 name = none)
    ∧ (∀ (n : Note) (d : Dir),
        (saveNote renameFailOnly n d).1 ≠ .ok () ∧
        lookupFile (saveNote renameFailOnly n d).2
          (tmpPath n.ID) = some (.file (.note n)))
    ∧ (∀ (f : Faults) (n : Note) (d : Dir) (c : Content),
        f.writeTmp = .fail (some c) →
        (saveNote f n d).1 ≠ .ok () ∧
        lookupFile (saveNote f n d).2 (tmpPath n.ID) = some (.file c)) := by
  refine ⟨openEditor_no_leftover, ?_, ?_⟩
  · intro n d
    refine ⟨fun h => Except.noConfusion h, ?_⟩
    simp only [saveNote, if_true]
    exact lookup_set_self _ _ _
  · intro f n d c hf
    rw [saveNote, hf]
    exact ⟨fun h => Except.noConfusion h, lookup_set_self _ _ _⟩

/-- C8 witness: an editor run whose `cmd.Run` fails leaves no temp file
behind, while a save whose temp write failed leaving partial bytes
returns the error with those bytes still at the `.tmp` path. -/
theorem tmp_cleanup_editor_only_witness :
    lookupTmp (openEditor runFailEd "note-1.md" "" "text" []).2 "note-1.md" = none ∧
    lookupFile (saveNote writeFailPartial sampleNote []).2 (tmpPath sampleNote.ID) =
      some (.file (.corrupt "torn write")) :=
  ⟨tmp_cleanup_editor_only.1 runFailEd "note-1.md" "" "text" [] rfl,
    (tmp_cleanup_editor_only.2.2 writeFailPartial sampleNote []
      (.corrupt "torn write") rfl).2⟩

/-- C9: `saveNote`'s temporary file name is the final path with `".tmp"`
appended, which never satisfies `loadAll`'s requirement that a name end
in `".json"`; consequently a failed `Save` — whatever it left behind —
does not change the result of `LoadAll` at all. -/
theorem tmp_files_invisible_to_loadAll (f : Faults) (n : Note) (d : Dir) :
    (∀ i : Int, goHasSuffix (tmpPath i) ".json" = false)
    ∧ tmpPath n.ID = notePath n.ID ++ ".tmp"
    ∧ ((saveNote f n d).1 ≠ .ok () → loadAll (saveNote f n d).2 = loadAll d) :=
  ⟨tmpPath_not_json, rfl, loadAll_after_failed_save f n d⟩

/-- C9 witness: a save interrupted before the rename leaves `LoadAll` of
the empty store unchanged. -/
theorem tmp_files_invisible_to_loadAll_witness :
    loadAll (saveNote renameFailOnly sampleNote []).2 =
      loadAll [] :=
  (tmp_files_invisible_to_loadAll renameFailOnly
    sampleNote []).2.2 (fun h => Except.noConfusion h)

/-- C10: `LoadOne` returns the note parsed from the file named for the
requested id with whatever id the content specifies — no check relates
the two — so a store whose file `0007.json` holds a record with content
id 3 makes `LoadOne(7)` return a note whose id is 3, and `LoadAll`
likewise includes it. -/
theorem loadOne_trusts_content_id :
    (∀ (d : Dir) (id : Int) (n : Note),
        lookupFile d (notePath id) = some (.file (.note n)) →
        loadNote d id = some n)
    ∧ loadNote crossDir 7 = some crossNote
    ∧ crossNote.ID ≠ 7
    ∧ loadAll crossDir = [crossNote] := by
  refine ⟨?_, by decide, by decide, by decide⟩
  intro d id n h
  rw [loadNote, h]
  rfl

/-- C10 witness: applying the general rule to the mismatched store
returns the content's note. -/
theorem loadOne_trusts_content_id_witness :
    loadNote crossDir 7 = some crossNote :=
  loadOne_trusts_content_id.1 crossDir 7 crossNote (by decide)
